import Mathlib

/-!
Shallow embedding of the `celebrities` program (Rust).

Source layout:
- `src/clique/person.rs`: the `Person` struct (id, known_people), the
  reflexive `knows` test, construction from an `(id, known ids)` pair,
  equality and hashing keyed on `id` alone.
- `src/clique.rs`: `is_clique`, `is_cclique`, the exhaustive search
  `cclique`, the cardinality-levelled `power_set`, `binomial_approx`,
  and the graph export `clique2digraph`.
- `src/main.rs`: the sample party.

Rust `HashSet<Person>` (equality and hash on `id`) is modelled as
`Finset Person`; where the iteration order of a hash set matters
(`power_set`, `cclique`, `clique2digraph`) the set is passed as the
`List Person` in which it is iterated, with the hash-set invariant
`(l.map Person.id).Nodup` as a hypothesis.  Membership tests performed
by Rust through `HashSet::contains` use id-equality and are modelled by
`hsContains`.
-/

namespace Celebrities

/-- An actor (`Person` in `src/clique/person.rs`): an identity and the set
of ids of the people it acknowledges knowing. -/
structure Person where
  id : Nat
  known_people : Finset Nat
deriving DecidableEq

/-- `Person::knows` (`person.rs` lines 15-18):
`self == other || self.known_people.contains(&other.id)`, where `==` is
the `PartialEq` impl comparing `id` alone. -/
def Person.knows (a b : Person) : Prop :=
  a.id = b.id ∨ b.id ∈ a.known_people

instance (a b : Person) : Decidable (a.knows b) :=
  inferInstanceAs (Decidable (a.id = b.id ∨ b.id ∈ a.known_people))

/-- `From<(N, V)> for Person` (`person.rs` lines 26-36): keep the id and
store the supplied known ids with any self-reference filtered out.
Construction is total: it never fails. -/
def Person.fromPair (p : Nat × List Nat) : Person :=
  { id := p.1
    known_people := (p.2.filter (fun people_id => people_id ≠ p.1)).toFinset }

/-- `HashSet<Person>::contains`: membership decided by the `PartialEq`
impl of `Person`, i.e. by id. -/
def hsContains (s : Finset Person) (p : Person) : Prop :=
  ∃ q ∈ s, q.id = p.id

instance (s : Finset Person) (p : Person) : Decidable (hsContains s p) :=
  inferInstanceAs (Decidable (∃ q ∈ s, q.id = p.id))

/-- `is_clique` (`clique.rs` lines 36-45): collect the member ids, then
every member's difference `clique_ids \ known_people`, filtered of the
member's own id, must be empty. -/
def is_clique (s : Finset Person) : Prop :=
  ∀ member ∈ s,
    ((s.image Person.id \ member.known_people).filter
      (fun rem => rem ≠ member.id)).card = 0

instance (s : Finset Person) : Decidable (is_clique s) :=
  inferInstanceAs (Decidable (∀ member ∈ s,
    ((s.image Person.id \ member.known_people).filter
      (fun rem => rem ≠ member.id)).card = 0))

/-- `is_cclique` (`clique.rs` lines 47-58): the double loop returns
`false` as soon as some pair `(someone, celebrity)` has
`!someone.knows(celebrity) || (celebrity.knows(someone) && !self.contains(someone))`;
it returns `true` when no pair triggers that condition. -/
def is_cclique (s party : Finset Person) : Prop :=
  ∀ someone ∈ party, ∀ celebrity ∈ s,
    ¬(¬someone.knows celebrity ∨
      (celebrity.knows someone ∧ ¬hsContains s someone))

instance (s party : Finset Person) : Decidable (is_cclique s party) :=
  inferInstanceAs (Decidable (∀ someone ∈ party, ∀ celebrity ∈ s,
    ¬(¬someone.knows celebrity ∨
      (celebrity.knows someone ∧ ¬hsContains s someone))))

section PowerSet

variable {α : Type*} [DecidableEq α]

/-- One pass of the element loop of `power_set` (`clique.rs` lines 76-84).
The Rust code scans cardinalities `cap` from `n-1` down to `0` and pushes
`subset ∪ {elem}` into `levels[cap+1]` for every `subset` in a clone of
`levels[cap]`; because `levels[cap]` is only ever extended at the later
iteration `cap-1`, every read sees the pre-pass value, so the pass is the
simultaneous update `new[k+1] = old[k+1] ++ (old[k]).map (insert elem)`
with `new[0] = old[0]`. -/
def extendLevels (e : α) : List (List (Finset α)) → List (List (Finset α))
  | [] => []
  | l0 :: rest =>
      l0 :: rest.zipWith (fun lk1 lk => lk1 ++ lk.map (insert e)) (l0 :: rest)

/-- The level structure built by `power_set` (`clique.rs` lines 70-84):
level `0` holds the empty subset, levels `1..n` start empty (the
`binomial_approx` capacity hint does not affect contents), then one
`extendLevels` pass runs per element in iteration order. -/
def powerLevels (l : List α) : List (List (Finset α)) :=
  l.foldl (fun levels e => extendLevels e levels)
    ([(∅ : Finset α)] :: List.replicate l.length [])

/-- `power_set` (`clique.rs` lines 69-86): build the levels and flatten
them in order of cardinality. -/
def power_set (l : List α) : List (Finset α) :=
  (powerLevels l).flatten

/-- Invariant of the level structure of `power_set` after the elements of
`S` have been processed: each level `k` holds subsets of `S` of cardinality
`k`, without duplicates, and every subset of `S` whose cardinality indexes
an existing level is present at its level. -/
def LevelsInv (S : Finset α) (L : List (List (Finset α))) : Prop :=
  (∀ k, ∀ hk : k < L.length, ∀ s ∈ L.get ⟨k, hk⟩, s ⊆ S ∧ s.card = k) ∧
  (∀ k, ∀ hk : k < L.length, (L.get ⟨k, hk⟩).Nodup) ∧
  (∀ s : Finset α, s ⊆ S → ∀ hs : s.card < L.length, s ∈ L.get ⟨s.card, hs⟩)

end PowerSet

/-- `cclique` (`clique.rs` lines 60-66): enumerate the power set of the
party, skip the first entry (the empty subset) and return the first
subset satisfying `is_cclique` against the party. -/
def cclique (l : List Person) : Option (Finset Person) :=
  ((power_set l).drop 1).find? (fun people => decide (is_cclique people l.toFinset))

/-- `binomial_approx` (`clique.rs` lines 88-97). -/
def binomial_approx (n k : Nat) : Nat :=
  if n < k then 0
  else if k = 0 ∨ k = n then 1
  else (List.range k).foldl (fun acc v => acc * (n - v) / (v + 1)) 1

/-- `clique2digraph` (`clique.rs` lines 99-124): one graph node per person,
carrying the person's id, with the node handle of id `i` recorded in a map;
then for every person and every known id an edge between the mapped handles,
skipped (`continue`) when either id has no node.  Node handles are creation
indices, so the map sends an id to its position in the iteration order; the
edge loop draws the known ids of a person in ascending order (the hash-set
iteration order is unspecified in Rust).  The graph is returned as the list
of node weights in creation order and the list of index edges. -/
def clique2digraph (l : List Person) : List Nat × List (Nat × Nat) :=
  (l.map Person.id,
    l.flatMap fun person =>
      (person.known_people.sort (· ≤ ·)).filterMap fun known_person_id =>
        match (l.map Person.id).indexOf? person.id,
              (l.map Person.id).indexOf? known_person_id with
        | some u, some v => some (u, v)
        | _, _ => none)

/-- Read the edges of an exported graph back as pairs of node weights
(ids), resolving each node index against the node list. -/
def edgeIds (g : List Nat × List (Nat × Nat)) : List (Nat × Nat) :=
  g.2.map fun uv => (g.1.getD uv.1 0, g.1.getD uv.2 0)

/-- The sample dataset of `src/main.rs` lines 22-33. -/
def mainPairs : List (Nat × List Nat) :=
  [(1, [1, 2, 3]), (2, [1, 3]), (3, [1, 2]), (4, [1, 2, 3, 42]),
   (5, [1, 2, 3, 4, 5]), (6, [1, 2, 3, 7]), (7, [1, 2, 3, 5, 6])]

/-- The sample party of `src/main.rs`: the pairs sent through
`Person::from`.  The list order stands for the unspecified hash-set
iteration order; `cclique` is proved independent of it. -/
def mainParty : List Person := mainPairs.map Person.fromPair


/-! ### Characterisations of the predicates -/

/-- The double loop of `is_cclique` checks exactly: everyone knows every
celebrity, and a celebrity knowing someone forces that someone into the
candidate set (membership through `HashSet::contains`, i.e. by id). -/
lemma is_cclique_iff (s party : Finset Person) :
    is_cclique s party ↔
      ∀ p ∈ party, ∀ c ∈ s, p.knows c ∧ (c.knows p → hsContains s p) := by
  have habs : ∀ A B C : Prop, (¬(¬A ∨ (B ∧ ¬C))) ↔ (A ∧ (B → C)) := by tauto
  unfold is_cclique
  exact forall₂_congr fun p hp => forall₂_congr fun c hc => habs _ _ _

/-- The difference-and-filter test of `is_clique` says precisely that every
member knows every other member. -/
lemma is_clique_iff (s : Finset Person) :
    is_clique s ↔ ∀ a ∈ s, ∀ b ∈ s, a ≠ b → a.knows b := by
  unfold is_clique
  constructor
  · intro h a ha b hb _
    by_cases hid : a.id = b.id
    · exact Or.inl hid
    · refine Or.inr ?_
      by_contra hnk
      have hmem : b.id ∈ (s.image Person.id \ a.known_people).filter
          (fun rem => rem ≠ a.id) := by
        simp only [Finset.mem_filter, Finset.mem_sdiff, Finset.mem_image]
        exact ⟨⟨⟨b, hb, rfl⟩, hnk⟩, fun hc => hid hc.symm⟩
      have := Finset.card_eq_zero.mp (h a ha)
      simp [this] at hmem
  · intro h member hmem
    rw [Finset.card_eq_zero, Finset.eq_empty_iff_forall_not_mem]
    intro x hx
    simp only [Finset.mem_filter, Finset.mem_sdiff, Finset.mem_image] at hx
    obtain ⟨⟨⟨b, hb, rfl⟩, hnk⟩, hne⟩ := hx
    by_cases hbm : b = member
    · exact hne (by rw [hbm])
    · rcases h member hmem b hb (fun hc => hbm hc.symm) with hid | hk
      · exact hne hid.symm
      · exact hnk hk

/-- C4: `is_cclique(S, party)` holds iff every `p` in `party` and `c` in
`S` satisfy `p.knows c`, and `c.knows p` forces `p` to be a member of `S`
(membership as decided by the hash set, i.e. by id); the empty candidate
subset satisfies the predicate against every party. -/
theorem is_cclique_spec (s party : Finset Person) :
    (is_cclique s party ↔
      ∀ p ∈ party, ∀ c ∈ s, p.knows c ∧ (c.knows p → hsContains s p)) ∧
    is_cclique ∅ party := by
  refine ⟨is_cclique_iff s party, ?_⟩
  intro someone _ celebrity hc
  exact absurd hc (Finset.not_mem_empty celebrity)

/-- C6: `is_clique(S)` holds iff every member of `S` knows every other
member; in particular the empty set and every singleton form a clique. -/
theorem is_clique_spec (s : Finset Person) :
    (is_clique s ↔ ∀ a ∈ s, ∀ b ∈ s, a ≠ b → a.knows b) ∧
    is_clique (∅ : Finset Person) ∧ ∀ p : Person, is_clique {p} := by
  refine ⟨is_clique_iff s, ?_, ?_⟩
  · rw [is_clique_iff]
    intro a ha
    exact absurd ha (Finset.not_mem_empty a)
  · intro p
    rw [is_clique_iff]
    intro a ha b hb hne
    rw [Finset.mem_singleton] at ha hb
    exact absurd (ha.trans hb.symm) hne

/-- C5: a non-empty celebrity clique drawn from the party is a clique. -/
theorem cclique_is_clique (party C : Finset Person) (hsub : C ⊆ party)
    (_hne : C.Nonempty) (h : is_cclique C party) : is_clique C := by
  rw [is_clique_iff]
  intro a ha b hb _
  exact (((is_cclique_iff C party).mp h) a (hsub ha) b hb).1

/-- Witness for `cclique_is_clique`: the two-person party where each knows
the other is its own celebrity clique, hence a clique. -/
theorem cclique_is_clique_witness :
    (({⟨1, {2}⟩, ⟨2, {1}⟩} : Finset Person) ⊆ ({⟨1, {2}⟩, ⟨2, {1}⟩} : Finset Person) ∧
      ({⟨1, {2}⟩, ⟨2, {1}⟩} : Finset Person).Nonempty ∧
      is_cclique ({⟨1, {2}⟩, ⟨2, {1}⟩} : Finset Person) ({⟨1, {2}⟩, ⟨2, {1}⟩} : Finset Person)) ∧
    is_clique ({⟨1, {2}⟩, ⟨2, {1}⟩} : Finset Person) :=
  ⟨⟨by decide, by decide, by decide⟩,
    cclique_is_clique ({⟨1, {2}⟩, ⟨2, {1}⟩} : Finset Person)
      ({⟨1, {2}⟩, ⟨2, {1}⟩} : Finset Person) (by decide) (by decide) (by decide)⟩

/-- C9: `Person::from` never fails (it is a total function), keeps the id,
and strips any self-reference, so every constructed person's id is absent
from its own `known_people`; persons are immutable values thereafter. -/
theorem person_from_spec (idv : Nat) (ks : List Nat) :
    (Person.fromPair (idv, ks)).id = idv ∧
    (Person.fromPair (idv, ks)).id ∉ (Person.fromPair (idv, ks)).known_people := by
  refine ⟨rfl, ?_⟩
  simp [Person.fromPair, List.mem_filter]

/-- The iterative product of `binomial_approx` computes the exact binomial
coefficient: partial products are themselves binomial coefficients. -/
lemma range_foldl_choose (n : Nat) :
    ∀ k, (List.range k).foldl (fun acc v => acc * (n - v) / (v + 1)) 1
      = n.choose k := by
  intro k
  induction k with
  | zero => simp
  | succ k ih =>
      rw [List.range_succ, List.foldl_append, ih]
      simp only [List.foldl_cons, List.foldl_nil]
      rw [← Nat.choose_succ_right_eq, Nat.mul_div_cancel _ (Nat.succ_pos k)]

/-- C8: `binomial_approx(n, k)` equals the exact `C(n, k)` (0 when `k > n`,
1 when `k = 0` or `k = n`), and each step of the iterative product divides
evenly, so integer division loses nothing.  Arithmetic is modelled on `Nat`:
the claim assumes all intermediate products fit the machine word. -/
theorem binomial_approx_spec (n k : Nat) :
    binomial_approx n k = n.choose k ∧
    ∀ v, v < k → (v + 1) ∣ n.choose v * (n - v) := by
  constructor
  · unfold binomial_approx
    split
    · next h => exact (Nat.choose_eq_zero_of_lt h).symm
    · split
      · next h =>
          rcases h with h | h
          · subst h; exact (Nat.choose_zero_right n).symm
          · rw [h]; exact (Nat.choose_self n).symm
      · exact range_foldl_choose n k
  · intro v _
    exact ⟨n.choose (v + 1), by rw [← Nat.choose_succ_right_eq]; ring⟩


/-! ### The power-set generator -/

section PowerSetLemmas

variable {α : Type*} [DecidableEq α]

lemma extendLevels_length (e : α) (L : List (List (Finset α))) :
    (extendLevels e L).length = L.length := by
  cases L with
  | nil => rfl
  | cons l0 rest => simp [extendLevels]

lemma extendLevels_get_succ (e : α) (l0 : List (Finset α)) (rest : List (List (Finset α)))
    (k : Nat) (hk : k + 1 < (l0 :: rest).length) :
    (extendLevels e (l0 :: rest)).get
        ⟨k + 1, by rw [extendLevels_length]; exact hk⟩
      = (l0 :: rest).get ⟨k + 1, hk⟩ ++
        ((l0 :: rest).get ⟨k, Nat.lt_of_succ_lt hk⟩).map (insert e) := by
  have hk2 : k < (List.zipWith
      (fun lk1 lk => lk1 ++ lk.map (insert e)) rest (l0 :: rest)).length := by
    simp only [List.length_zipWith, List.length_cons, lt_min_iff]
    simp only [List.length_cons] at hk
    omega
  simp only [extendLevels, List.get_eq_getElem, List.getElem_cons_succ,
    List.getElem_zipWith]

lemma get_idx_congr {β : Type*} (L : List β) {i j : Nat} (hij : i = j)
    (hi : i < L.length) : L.get ⟨i, hi⟩ = L.get ⟨j, hij ▸ hi⟩ := by
  subst hij; rfl

lemma extendLevels_get_sub (e : α) (L : List (List (Finset α))) (k : Nat)
    (hk : k < L.length) :
    ∀ s ∈ L.get ⟨k, hk⟩, s ∈ (extendLevels e L).get
      ⟨k, by rw [extendLevels_length]; exact hk⟩ := by
  cases L with
  | nil => simp at hk
  | cons l0 rest =>
      cases k with
      | zero => intro s hs; exact hs
      | succ k =>
          intro s hs
          rw [extendLevels_get_succ e l0 rest k hk]
          exact List.mem_append.mpr (Or.inl hs)

lemma extendLevels_get_insert (e : α) (L : List (List (Finset α))) (k : Nat)
    (hk : k + 1 < L.length) :
    ∀ t ∈ L.get ⟨k, Nat.lt_of_succ_lt hk⟩, insert e t ∈ (extendLevels e L).get
      ⟨k + 1, by rw [extendLevels_length]; exact hk⟩ := by
  cases L with
  | nil => simp at hk
  | cons l0 rest =>
      intro t ht
      rw [extendLevels_get_succ e l0 rest k hk]
      exact List.mem_append.mpr (Or.inr (List.mem_map.mpr ⟨t, ht, rfl⟩))

lemma LevelsInv_extend (e : α) (S : Finset α) (L : List (List (Finset α)))
    (he : e ∉ S) (h : LevelsInv S L) : LevelsInv (insert e S) (extendLevels e L) := by
  obtain ⟨hmem, hnd, hcomp⟩ := h
  cases L with
  | nil =>
      refine ⟨?_, ?_, ?_⟩
      · intro k hk; simp [extendLevels] at hk
      · intro k hk; simp [extendLevels] at hk
      · intro s hsub hs; simp [extendLevels] at hs
  | cons l0 rest =>
      refine ⟨?_, ?_, ?_⟩
      · intro k hk s hs
        cases k with
        | zero =>
            have h0 : (0 : Nat) < (l0 :: rest).length := by simp
            obtain ⟨hsub, hcard⟩ := hmem 0 h0 s hs
            exact ⟨hsub.trans (Finset.subset_insert e S), hcard⟩
        | succ k =>
            rw [extendLevels_length] at hk
            rw [extendLevels_get_succ e l0 rest k hk] at hs
            rcases List.mem_append.mp hs with hold | hnew
            · obtain ⟨hsub, hcard⟩ := hmem (k + 1) hk s hold
              exact ⟨hsub.trans (Finset.subset_insert e S), hcard⟩
            · obtain ⟨t, ht, rfl⟩ := List.mem_map.mp hnew
              obtain ⟨hsub, hcard⟩ := hmem k (Nat.lt_of_succ_lt hk) t ht
              have het : e ∉ t := fun hc => he (hsub hc)
              exact ⟨Finset.insert_subset_insert e hsub,
                by rw [Finset.card_insert_of_not_mem het, hcard]⟩
      · intro k hk
        cases k with
        | zero => exact hnd 0 (by simp)
        | succ k =>
            rw [extendLevels_length] at hk
            rw [extendLevels_get_succ e l0 rest k hk]
            have hkk := Nat.lt_of_succ_lt hk
            refine (hnd (k + 1) hk).append ?_ ?_
            · refine (hnd k hkk).map_on ?_
              intro x hx y hy hxy
              have hex : e ∉ x := fun hc => he ((hmem k hkk x hx).1 hc)
              have hey : e ∉ y := fun hc => he ((hmem k hkk y hy).1 hc)
              rw [← Finset.erase_insert hex, hxy, Finset.erase_insert hey]
            · intro x hxo hxn
              obtain ⟨t, _, rfl⟩ := List.mem_map.mp hxn
              exact he ((hmem (k + 1) hk (insert e t) hxo).1 (Finset.mem_insert_self e t))
      · intro s hsub hs
        by_cases hes : e ∈ s
        · have hterase : s.erase e ⊆ S := Finset.subset_insert_iff.mp hsub
          have hcard : s.card = (s.erase e).card + 1 := by
            rw [Finset.card_erase_of_mem hes]
            have : 0 < s.card := Finset.card_pos.mpr ⟨e, hes⟩
            omega
          have hlt : (s.erase e).card + 1 < (l0 :: rest).length := by
            rw [extendLevels_length] at hs; omega
          have hmem2 := hcomp (s.erase e) hterase (Nat.lt_of_succ_lt hlt)
          have hgoal := extendLevels_get_insert e (l0 :: rest) (s.erase e).card hlt
            (s.erase e) hmem2
          rw [Finset.insert_erase hes] at hgoal
          rw [get_idx_congr _ hcard]
          exact hgoal
        · have hsub2 : s ⊆ S := by
            have h2 := Finset.subset_insert_iff.mp hsub
            rwa [Finset.erase_eq_of_not_mem hes] at h2
          have hs2 : s.card < (l0 :: rest).length := by
            rw [extendLevels_length] at hs; omega
          exact extendLevels_get_sub e (l0 :: rest) s.card hs2 s (hcomp s hsub2 hs2)

omit [DecidableEq α] in
lemma LevelsInv_init (n : Nat) :
    LevelsInv (∅ : Finset α) ([(∅ : Finset α)] :: List.replicate n []) := by
  refine ⟨?_, ?_, ?_⟩
  · intro k hk s hs
    cases k with
    | zero =>
        have hse : s = ∅ := by simpa using hs
        subst hse
        exact ⟨Finset.Subset.refl _, Finset.card_empty⟩
    | succ k =>
        simp only [List.get_eq_getElem, List.getElem_cons_succ,
          List.getElem_replicate] at hs
        simp at hs
  · intro k hk
    cases k with
    | zero => simp
    | succ k =>
        simp only [List.get_eq_getElem, List.getElem_cons_succ,
          List.getElem_replicate]
        exact List.nodup_nil
  · intro s hsub hs
    have hse : s = ∅ := Finset.subset_empty.mp hsub
    subst hse
    simp

lemma LevelsInv_foldl (l : List α) (S : Finset α) (L : List (List (Finset α)))
    (hnd : l.Nodup) (hdisj : ∀ e ∈ l, e ∉ S) (h : LevelsInv S L) :
    LevelsInv (S ∪ l.toFinset) (l.foldl (fun lv e => extendLevels e lv) L) := by
  induction l generalizing S L with
  | nil => simpa using h
  | cons e rest ih =>
      simp only [List.foldl_cons]
      have h1 := LevelsInv_extend e S L (hdisj e (List.mem_cons_self e rest)) h
      have hnotmem : e ∉ rest := (List.nodup_cons.mp hnd).1
      have h2 := ih (insert e S) (extendLevels e L) (List.nodup_cons.mp hnd).2
        (fun x hx hc => by
          rcases Finset.mem_insert.mp hc with h3 | h3
          · exact hnotmem (h3 ▸ hx)
          · exact hdisj x (List.mem_cons_of_mem e hx) h3) h1
      have heq : insert e S ∪ rest.toFinset = S ∪ (e :: rest).toFinset := by
        rw [List.toFinset_cons, Finset.insert_union, Finset.union_insert]
      rwa [heq] at h2

lemma powerLevels_length (l : List α) : (powerLevels l).length = l.length + 1 := by
  unfold powerLevels
  have haux : ∀ (m : List α) (L : List (List (Finset α))),
      (m.foldl (fun lv e => extendLevels e lv) L).length = L.length := by
    intro m
    induction m with
    | nil => intro L; rfl
    | cons e es ih =>
        intro L
        simp only [List.foldl_cons]
        rw [ih, extendLevels_length]
  rw [haux]
  simp

lemma powerLevels_inv (l : List α) (hnd : l.Nodup) :
    LevelsInv l.toFinset (powerLevels l) := by
  have h := LevelsInv_foldl l ∅ ([(∅ : Finset α)] :: List.replicate l.length [])
    hnd (fun e _ => Finset.not_mem_empty e) (LevelsInv_init l.length)
  simpa [powerLevels] using h

lemma mem_power_set (l : List α) (hnd : l.Nodup) (s : Finset α) :
    s ∈ power_set l ↔ s ⊆ l.toFinset := by
  obtain ⟨hmem, _, hcomp⟩ := powerLevels_inv l hnd
  unfold power_set
  rw [List.mem_flatten]
  constructor
  · rintro ⟨lv, hlv, hslv⟩
    obtain ⟨i, hi⟩ := List.mem_iff_get.mp hlv
    exact (hmem i.1 i.2 s (hi ▸ hslv)).1
  · intro hsub
    have hcardlt : s.card < (powerLevels l).length := by
      rw [powerLevels_length]
      have h1 := Finset.card_le_card hsub
      have h2 := List.toFinset_card_le l
      omega
    exact ⟨_, List.get_mem (powerLevels l) s.card hcardlt, hcomp s hsub hcardlt⟩

lemma nodup_power_set (l : List α) (hnd : l.Nodup) : (power_set l).Nodup := by
  obtain ⟨hmem, hnd2, _⟩ := powerLevels_inv l hnd
  unfold power_set
  rw [List.nodup_flatten]
  constructor
  · intro lv hlv
    obtain ⟨i, hi⟩ := List.mem_iff_get.mp hlv
    exact hi ▸ hnd2 i.1 i.2
  · rw [List.pairwise_iff_get]
    intro i j hij x hxi hxj
    have h1 := (hmem i.1 i.2 x hxi).2
    have h2 := (hmem j.1 j.2 x hxj).2
    have hij2 : i.1 < j.1 := hij
    omega

lemma toFinset_power_set (l : List α) (hnd : l.Nodup) :
    (power_set l).toFinset = l.toFinset.powerset := by
  ext s
  rw [List.mem_toFinset, mem_power_set l hnd, Finset.mem_powerset]

lemma length_power_set (l : List α) (hnd : l.Nodup) :
    (power_set l).length = 2 ^ l.length := by
  rw [← List.toFinset_card_of_nodup (nodup_power_set l hnd),
    toFinset_power_set l hnd, Finset.card_powerset,
    List.toFinset_card_of_nodup hnd]

lemma count_card_power_set (l : List α) (hnd : l.Nodup) (k : Nat) :
    ((power_set l).filter (fun s => s.card = k)).length = l.length.choose k := by
  have hndf : ((power_set l).filter (fun s => s.card = k)).Nodup :=
    (nodup_power_set l hnd).filter _
  rw [← List.toFinset_card_of_nodup hndf, List.toFinset_filter,
    toFinset_power_set l hnd]
  simp only [decide_eq_true_eq]
  rw [← Finset.powersetCard_eq_filter, Finset.card_powersetCard,
    List.toFinset_card_of_nodup hnd]

lemma sorted_card_power_set (l : List α) (hnd : l.Nodup) :
    ((power_set l).map Finset.card).Sorted (· ≤ ·) := by
  obtain ⟨hmem, _, _⟩ := powerLevels_inv l hnd
  unfold power_set List.Sorted
  rw [List.map_flatten, List.pairwise_flatten]
  constructor
  · intro lv hlv
    obtain ⟨lv0, hlv0, rfl⟩ := List.mem_map.mp hlv
    obtain ⟨i, hi⟩ := List.mem_iff_get.mp hlv0
    apply List.pairwise_of_forall_mem_list
    intro a ha b hb
    obtain ⟨x, hx, rfl⟩ := List.mem_map.mp ha
    obtain ⟨y, hy, rfl⟩ := List.mem_map.mp hb
    rw [(hmem i.1 i.2 x (hi ▸ hx)).2, (hmem i.1 i.2 y (hi ▸ hy)).2]
  · rw [List.pairwise_map, List.pairwise_iff_get]
    intro i j hij a ha b hb
    obtain ⟨x, hx, rfl⟩ := List.mem_map.mp ha
    obtain ⟨y, hy, rfl⟩ := List.mem_map.mp hb
    have h1 := (hmem i.1 i.2 x hx).2
    have h2 := (hmem j.1 j.2 y hy).2
    have hij2 : i.1 < j.1 := hij
    omega

lemma power_set_eq_cons (l : List α) : ∃ t, power_set l = ∅ :: t := by
  have haux : ∀ (m : List α) (l0 : List (Finset α)) (rest : List (List (Finset α))),
      ∃ rest2, m.foldl (fun lv e => extendLevels e lv) (l0 :: rest) = l0 :: rest2 := by
    intro m
    induction m with
    | nil => exact fun l0 rest => ⟨rest, rfl⟩
    | cons e es ih =>
        intro l0 rest
        simp only [List.foldl_cons, extendLevels]
        exact ih l0 _
  obtain ⟨rest2, h⟩ := haux l [(∅ : Finset α)] (List.replicate l.length [])
  refine ⟨rest2.flatten, ?_⟩
  unfold power_set powerLevels
  rw [h]
  simp

/-- C2: on a duplicate-free enumeration `l` of a finite set `S` of `n`
elements, `power_set` returns exactly `2 ^ n` subsets; a set belongs to
the output iff it is a subset of `S`, and the output has no duplicates
(so every subset of `S` appears exactly once, in particular `S` itself
and the empty set appear exactly once each); the output is grouped by
increasing cardinality with the empty set first, and the number of
output subsets of cardinality `k` is `C(n, k)`. -/
theorem power_set_spec {α : Type*} [DecidableEq α] (l : List α) (hnd : l.Nodup) :
    (power_set l).length = 2 ^ l.length ∧
    (∀ s : Finset α, s ∈ power_set l ↔ s ⊆ l.toFinset) ∧
    (power_set l).Nodup ∧
    (power_set l).count l.toFinset = 1 ∧
    (power_set l).count ∅ = 1 ∧
    (power_set l).head? = some ∅ ∧
    ((power_set l).map Finset.card).Sorted (· ≤ ·) ∧
    ∀ k : Nat, ((power_set l).filter (fun s => s.card = k)).length
      = l.length.choose k := by
  refine ⟨length_power_set l hnd, mem_power_set l hnd, nodup_power_set l hnd,
    ?_, ?_, ?_, sorted_card_power_set l hnd, count_card_power_set l hnd⟩
  · exact List.count_eq_one_of_mem (nodup_power_set l hnd)
      ((mem_power_set l hnd _).mpr (Finset.Subset.refl _))
  · exact List.count_eq_one_of_mem (nodup_power_set l hnd)
      ((mem_power_set l hnd _).mpr (Finset.empty_subset _))
  · obtain ⟨t, ht⟩ := power_set_eq_cons l
    rw [ht]
    rfl

/-- Witness for `power_set_spec` at the three-element list `[0, 1, 2]`. -/
theorem power_set_spec_witness :
    ([0, 1, 2] : List Nat).Nodup ∧
    ((power_set [0, 1, 2]).length = 2 ^ ([0, 1, 2] : List Nat).length ∧
    (∀ s : Finset Nat, s ∈ power_set [0, 1, 2] ↔ s ⊆ ([0, 1, 2] : List Nat).toFinset) ∧
    (power_set [0, 1, 2]).Nodup ∧
    (power_set [0, 1, 2]).count ([0, 1, 2] : List Nat).toFinset = 1 ∧
    (power_set [0, 1, 2]).count ∅ = 1 ∧
    (power_set [0, 1, 2]).head? = some ∅ ∧
    ((power_set [0, 1, 2]).map Finset.card).Sorted (· ≤ ·) ∧
    ∀ k : Nat, ((power_set [0, 1, 2]).filter (fun s => s.card = k)).length
      = ([0, 1, 2] : List Nat).length.choose k) :=
  ⟨by decide, power_set_spec [0, 1, 2] (by decide)⟩


end PowerSetLemmas


/-! ### The celebrity-clique search -/

/-- In a hash set of persons the ids are pairwise distinct, so id-based
membership (`hsContains`) of a party member in a sub-hash-set agrees with
plain membership. -/
lemma hsContains_mem {party s : Finset Person}
    (hids : ∀ a ∈ party, ∀ b ∈ party, a.id = b.id → a = b)
    (hsub : s ⊆ party) {p : Person} (hp : p ∈ party) (h : hsContains s p) :
    p ∈ s := by
  obtain ⟨q, hq, hid⟩ := h
  exact hids q (hsub hq) p hp hid ▸ hq

/-- The uniqueness argument of the doc comment on `cclique` (`clique.rs`
lines 22-30): two non-empty celebrity cliques drawn from the same party
coincide. -/
lemma cclique_unique (party A B : Finset Person)
    (hids : ∀ a ∈ party, ∀ b ∈ party, a.id = b.id → a = b)
    (hAsub : A ⊆ party) (hBsub : B ⊆ party)
    (hAne : A.Nonempty) (hBne : B.Nonempty)
    (hA : is_cclique A party) (hB : is_cclique B party) : A = B := by
  rw [is_cclique_iff] at hA hB
  have key : ∀ X Y : Finset Person, X ⊆ party → Y ⊆ party → X.Nonempty →
      (∀ p ∈ party, ∀ c ∈ X, p.knows c ∧ (c.knows p → hsContains X p)) →
      (∀ p ∈ party, ∀ c ∈ Y, p.knows c ∧ (c.knows p → hsContains Y p)) →
      Y ⊆ X := by
    intro X Y hX hY hXne hXc hYc b hb
    obtain ⟨a, ha⟩ := hXne
    have hab : a.knows b := (hYc a (hX ha) b hb).1
    have hbX : hsContains X b := (hXc b (hY hb) a ha).2 hab
    exact hsContains_mem hids hX (hY hb) hbX
  exact Finset.Subset.antisymm (key B A hBsub hAsub hBne hB hA)
    (key A B hAsub hBsub hAne hA hB)

/-- The tail of the power-set enumeration (the part `cclique` searches)
holds exactly the non-empty subsets of the party. -/
lemma mem_power_set_drop {α : Type*} [DecidableEq α] (l : List α)
    (hnd : l.Nodup) (s : Finset α) :
    s ∈ (power_set l).drop 1 ↔ s ⊆ l.toFinset ∧ s ≠ ∅ := by
  obtain ⟨t, ht⟩ := power_set_eq_cons l
  rw [ht, List.drop_succ_cons, List.drop_zero]
  constructor
  · intro hst
    have hmem : s ∈ power_set l := ht ▸ List.mem_cons_of_mem _ hst
    refine ⟨(mem_power_set l hnd s).mp hmem, ?_⟩
    intro hse
    subst hse
    have hnodup := nodup_power_set l hnd
    rw [ht] at hnodup
    exact (List.nodup_cons.mp hnodup).1 hst
  · rintro ⟨hsub, hne⟩
    have hmem : s ∈ power_set l := (mem_power_set l hnd s).mpr hsub
    rw [ht] at hmem
    rcases List.mem_cons.mp hmem with h | h
    · exact absurd h hne
    · exact h

/-- `find?` returns the single satisfier when at most one element of the
list satisfies the predicate. -/
lemma find?_eq_some_of_unique {β : Type*} (p : β → Bool) (c : β)
    (hpc : p c = true) :
    ∀ L : List β, c ∈ L → (∀ x ∈ L, p x = true → x = c) →
      L.find? p = some c := by
  intro L
  induction L with
  | nil => intro hc _; simp at hc
  | cons x xs ih =>
      intro hc huniq
      by_cases hx : p x = true
      · rw [List.find?_cons_of_pos _ hx, huniq x (List.mem_cons_self x xs) hx]
      · rw [List.find?_cons_of_neg _ hx]
        have hcx : c ∈ xs := by
          rcases List.mem_cons.mp hc with h | h
          · exact absurd (h ▸ hpc) hx
          · exact h
        exact ih hcx fun y hy hpy => huniq y (List.mem_cons_of_mem x hy) hpy

/-- The distinct-id invariant of a hash set, read off its iteration order. -/
lemma idNodup_inj {l : List Person} (hid : (l.map Person.id).Nodup) :
    ∀ a ∈ l.toFinset, ∀ b ∈ l.toFinset, a.id = b.id → a = b := by
  intro a ha b hb hab
  rw [List.mem_toFinset] at ha hb
  exact List.inj_on_of_nodup_map hid ha hb hab

/-- `cclique` comes back empty exactly when no non-empty subset of the
party satisfies `is_cclique`. -/
lemma cclique_eq_none_iff (l : List Person) (hid : (l.map Person.id).Nodup) :
    cclique l = none ↔
      ∀ s ⊆ l.toFinset, s ≠ ∅ → ¬is_cclique s l.toFinset := by
  unfold cclique
  rw [List.find?_eq_none]
  constructor
  · intro h s hsub hne hcc
    have h2 := h s ((mem_power_set_drop l (List.Nodup.of_map _ hid) s).mpr ⟨hsub, hne⟩)
    rw [decide_eq_true_eq] at h2
    exact h2 hcc
  · intro h x hx
    rw [decide_eq_true_eq]
    obtain ⟨hsub, hne⟩ := (mem_power_set_drop l (List.Nodup.of_map _ hid) x).mp hx
    exact h x hsub hne

/-- What a successful search returns: a non-empty subset of the party
satisfying `is_cclique`. -/
lemma cclique_eq_some_spec (l : List Person) (hid : (l.map Person.id).Nodup)
    (C : Finset Person) (h : cclique l = some C) :
    C ⊆ l.toFinset ∧ C ≠ ∅ ∧ is_cclique C l.toFinset := by
  unfold cclique at h
  have hmem := List.mem_of_find?_eq_some h
  have hp := List.find?_some h
  rw [decide_eq_true_eq] at hp
  obtain ⟨hsub, hne⟩ := (mem_power_set_drop l (List.Nodup.of_map _ hid) C).mp hmem
  exact ⟨hsub, hne, hp⟩

/-- By uniqueness, the search returns any non-empty satisfier one can
exhibit, whatever the enumeration order. -/
lemma cclique_eq_some_of (l : List Person) (hid : (l.map Person.id).Nodup)
    (C : Finset Person) (hsub : C ⊆ l.toFinset) (hne : C.Nonempty)
    (hcc : is_cclique C l.toFinset) : cclique l = some C := by
  unfold cclique
  apply find?_eq_some_of_unique _ C (by rw [decide_eq_true_eq]; exact hcc)
  · exact (mem_power_set_drop l (List.Nodup.of_map _ hid) C).mpr
      ⟨hsub, Finset.nonempty_iff_ne_empty.mp hne⟩
  · intro x hx hpx
    rw [decide_eq_true_eq] at hpx
    obtain ⟨hxsub, hxne⟩ := (mem_power_set_drop l (List.Nodup.of_map _ hid) x).mp hx
    exact cclique_unique l.toFinset x C (idNodup_inj hid) hxsub hsub
      (Finset.nonempty_iff_ne_empty.mpr hxne) hne hpx hcc

/-- C1: the search enumerates the power set of the party, skips the
element at index 0 of the cardinality-ordered sequence (the empty
subset), and returns the first subset satisfying `is_cclique` against
the party; the result is `none` exactly when no non-empty subset of the
party satisfies `is_cclique`, and a returned subset is a non-empty
subset of the party satisfying `is_cclique`. -/
theorem cclique_spec (l : List Person) (hid : (l.map Person.id).Nodup) :
    (power_set l).head? = some ∅ ∧
    cclique l = ((power_set l).drop 1).find?
      (fun people => decide (is_cclique people l.toFinset)) ∧
    (cclique l = none ↔
      ∀ s ⊆ l.toFinset, s ≠ ∅ → ¬is_cclique s l.toFinset) ∧
    ∀ C, cclique l = some C →
      C ⊆ l.toFinset ∧ C ≠ ∅ ∧ is_cclique C l.toFinset := by
  refine ⟨?_, rfl, cclique_eq_none_iff l hid,
    fun C h => cclique_eq_some_spec l hid C h⟩
  obtain ⟨t, ht⟩ := power_set_eq_cons l
  rw [ht]
  rfl

/-- Witness for `cclique_spec` at the sample party of `src/main.rs`. -/
theorem cclique_spec_witness :
    (mainParty.map Person.id).Nodup ∧
    ((power_set mainParty).head? = some ∅ ∧
    cclique mainParty = ((power_set mainParty).drop 1).find?
      (fun people => decide (is_cclique people mainParty.toFinset)) ∧
    (cclique mainParty = none ↔
      ∀ s ⊆ mainParty.toFinset, s ≠ ∅ → ¬is_cclique s mainParty.toFinset) ∧
    ∀ C, cclique mainParty = some C →
      C ⊆ mainParty.toFinset ∧ C ≠ ∅ ∧ is_cclique C mainParty.toFinset) :=
  ⟨by decide, cclique_spec mainParty (by decide)⟩

/-- C3: at most one non-empty subset of a party (a set with pairwise
distinct ids) satisfies `is_cclique`; consequently the result of
`cclique` is the same however (and how often) the party is enumerated,
so the search is idempotent and independent of enumeration order. -/
theorem cclique_unique_spec (party : Finset Person)
    (hids : ∀ a ∈ party, ∀ b ∈ party, a.id = b.id → a = b) :
    (∀ A B : Finset Person, A ⊆ party → B ⊆ party → A.Nonempty →
      B.Nonempty → is_cclique A party → is_cclique B party → A = B) ∧
    (∀ l1 l2 : List Person, (l1.map Person.id).Nodup →
      (l2.map Person.id).Nodup → l1.toFinset = party →
      l2.toFinset = party → cclique l1 = cclique l2) := by
  constructor
  · intro A B hAsub hBsub hAne hBne hA hB
    exact cclique_unique party A B hids hAsub hBsub hAne hBne hA hB
  · intro l1 l2 h1 h2 ht1 ht2
    by_cases hex : ∃ C : Finset Person, C ⊆ party ∧ C.Nonempty ∧ is_cclique C party
    · obtain ⟨C, hsub, hne, hcc⟩ := hex
      rw [cclique_eq_some_of l1 h1 C (ht1.symm ▸ hsub) hne (ht1.symm ▸ hcc),
        cclique_eq_some_of l2 h2 C (ht2.symm ▸ hsub) hne (ht2.symm ▸ hcc)]
    · have hnone : ∀ l : List Person, (l.map Person.id).Nodup →
          l.toFinset = party → cclique l = none := by
        intro l h ht
        rw [cclique_eq_none_iff l h]
        intro s hsub hne hcc
        exact hex ⟨s, ht ▸ hsub, Finset.nonempty_iff_ne_empty.mpr hne, ht ▸ hcc⟩
      rw [hnone l1 h1 ht1, hnone l2 h2 ht2]

/-- Witness for `cclique_unique_spec` at the sample party. -/
theorem cclique_unique_spec_witness :
    (∀ a ∈ mainParty.toFinset, ∀ b ∈ mainParty.toFinset, a.id = b.id → a = b) ∧
    ((∀ A B : Finset Person, A ⊆ mainParty.toFinset → B ⊆ mainParty.toFinset →
      A.Nonempty → B.Nonempty → is_cclique A mainParty.toFinset →
      is_cclique B mainParty.toFinset → A = B) ∧
    (∀ l1 l2 : List Person, (l1.map Person.id).Nodup →
      (l2.map Person.id).Nodup → l1.toFinset = mainParty.toFinset →
      l2.toFinset = mainParty.toFinset → cclique l1 = cclique l2)) :=
  ⟨by decide, cclique_unique_spec mainParty.toFinset (by decide)⟩

/-- C7: on the sample party of `src/main.rs` (self-references stripped by
construction) the search finds exactly the subset of the actors with ids
1, 2 and 3. -/
theorem main_party_cclique :
    cclique mainParty =
      some {⟨1, {2, 3}⟩, ⟨2, {1, 3}⟩, ⟨3, {1, 2}⟩} := by
  apply cclique_eq_some_of mainParty (by decide)
  · decide
  · decide
  · decide


/-! ### The graph exporter -/

/-- `indexOf?` on a list of ids finds an occurrence of any member, and the
node weight at the found position is that id. -/
lemma indexOf?_getD {ns : List Nat} {a : Nat} (h : a ∈ ns) :
    ∃ u, ns.indexOf? a = some u ∧ ns.getD u 0 = a := by
  induction ns with
  | nil => simp at h
  | cons x xs ih =>
      rw [List.indexOf?_cons]
      by_cases hx : x = a
      · exact ⟨0, by simp [hx], by simp [hx]⟩
      · have hmem : a ∈ xs := by
          rcases List.mem_cons.mp h with h2 | h2
          · exact absurd h2.symm hx
          · exact h2
        obtain ⟨u, hu, hg⟩ := ih hmem
        refine ⟨u + 1, ?_, ?_⟩
        · simp [hx, hu]
        · simpa using hg

lemma indexOf?_eq_none_of_not_mem {ns : List Nat} {a : Nat} (h : a ∉ ns) :
    ns.indexOf? a = none := by
  rw [List.indexOf?_eq_none_iff]
  intro x hx
  simp only [beq_iff_eq]
  intro he
  exact h (he ▸ hx)

/-- C10 (counterexample): in the singleton party of the actor with id 4
who knows the out-of-party id 42, the claimed edge `4 → 42` is absent —
the exporter emits no edge at all, because the `continue` branch of
`clique2digraph` skips known ids that are not nodes. -/
theorem clique2digraph_missing_edge :
    42 ∈ (⟨4, ({42} : Finset Nat)⟩ : Person).known_people ∧
    (clique2digraph [⟨4, ({42} : Finset Nat)⟩]).2 = [] ∧
    (4, 42) ∉ edgeIds (clique2digraph [⟨4, ({42} : Finset Nat)⟩]) := by
  have h2 : (clique2digraph [⟨4, ({42} : Finset Nat)⟩]).2 = [] := by
    simp only [clique2digraph, List.flatMap_cons, List.flatMap_nil,
      List.append_nil]
    rw [Finset.sort_singleton]
    rfl
  exact ⟨by decide, h2, by simp [edgeIds, h2]⟩

/-- C10 (amended): the exporter produces one node per actor, weighted with
the actor's id, and its edges read back as id pairs are exactly the pairs
`(a, b)` with `a` the id of a party actor, `b` one of that actor's known
ids, and `b` itself the id of some actor of the party.  Known ids outside
the party yield no edge. -/
theorem clique2digraph_spec (l : List Person) :
    (clique2digraph l).1 = l.map Person.id ∧
    ∀ a b : Nat, (a, b) ∈ edgeIds (clique2digraph l) ↔
      ∃ p ∈ l, p.id = a ∧ b ∈ p.known_people ∧ b ∈ l.map Person.id := by
  refine ⟨rfl, ?_⟩
  have hnodes : (clique2digraph l).1 = l.map Person.id := rfl
  intro a b
  constructor
  · intro h
    simp only [edgeIds, List.mem_map] at h
    obtain ⟨⟨u, v⟩, huv, heq⟩ := h
    rw [hnodes] at heq
    simp only [clique2digraph, List.mem_flatMap] at huv
    obtain ⟨p, hp, hfm⟩ := huv
    rw [List.mem_filterMap] at hfm
    obtain ⟨kid, hkid, hmatch⟩ := hfm
    rw [Finset.mem_sort] at hkid
    split at hmatch
    case _ u2 v2 h1 h2 =>
      rw [Option.some.injEq, Prod.mk.injEq] at hmatch
      obtain ⟨rfl, rfl⟩ := hmatch
      have hpn : p.id ∈ l.map Person.id := List.mem_map_of_mem Person.id hp
      obtain ⟨u0, hu0, hgu⟩ := indexOf?_getD hpn
      rw [h1, Option.some.injEq] at hu0
      subst hu0
      have hkn : kid ∈ l.map Person.id := by
        by_contra hkn
        rw [indexOf?_eq_none_of_not_mem hkn] at h2
        exact Option.noConfusion h2
      obtain ⟨v0, hv0, hgv⟩ := indexOf?_getD hkn
      rw [h2, Option.some.injEq] at hv0
      subst hv0
      rw [Prod.mk.injEq] at heq
      obtain ⟨ha2, hb2⟩ := heq
      subst ha2
      subst hb2
      refine ⟨p, hp, hgu.symm, ?_, ?_⟩
      · rw [hgv]; exact hkid
      · rw [hgv]; exact hkn
    case _ =>
      exact Option.noConfusion hmatch
  · rintro ⟨p, hp, rfl, hbk, hbn⟩
    have hpn : p.id ∈ l.map Person.id := List.mem_map_of_mem Person.id hp
    obtain ⟨u, hu, hgu⟩ := indexOf?_getD hpn
    obtain ⟨v, hv, hgv⟩ := indexOf?_getD hbn
    refine List.mem_map.mpr ⟨(u, v), ?_, ?_⟩
    · refine List.mem_flatMap.mpr ⟨p, hp, List.mem_filterMap.mpr
        ⟨b, (Finset.mem_sort _).mpr hbk, ?_⟩⟩
      rw [hu, hv]
    · show ((clique2digraph l).1.getD u 0, (clique2digraph l).1.getD v 0) = _
      rw [hnodes, hgu, hgv]

end Celebrities
